import Mathlib

/-!
Verification of the environment-to-properties core of `ub.go`
(confluent-docker-utils-go).

Shallow embedding conventions:
* Go strings are modelled as `List Char` (the inputs of interest are ASCII,
  where byte order and codepoint order agree).
* Go maps are modelled as association lists together with an explicit
  iteration order; inserting moves the key to the end (`mapInsert`), which
  matches the "later write wins" semantics of Go map assignment.
* Go's `panic` (the out-of-range slice in `BuildProperties`) is modelled by
  `Option`: `none` is a panic.
* `time.Now()` and `os.Environ()` are ambient inputs of the process; they are
  passed in as explicit parameters (`now`, `environ`).
-/

abbrev Str := List Char

/-! ## KeyConverter: `ConvertKey` and its three replacement passes

Go source:
```
func ConvertKey(key string) string {
    re := regexp.MustCompile("[^_]_[^_]")
    singleReplaced := re.ReplaceAllStringFunc(key, replaceUnderscores)
    singleTripleReplaced := strings.ReplaceAll(singleReplaced, "___", "-")
    return strings.ToLower(strings.ReplaceAll(singleTripleReplaced, "__", "_"))
}
```
`ReplaceAllStringFunc` and `ReplaceAll` both replace leftmost, non-overlapping
occurrences, scanning left to right; each is modelled by a recursion that
tries the pattern at the current position and otherwise advances one
character. `replaceUnderscores` turns every `_` of the 3-character match
into `.`; since the outer two characters of a match are not underscores this
replaces exactly the middle underscore. -/

def replaceSingles : Str → Str
  | a :: b :: c :: rest =>
    if a ≠ '_' ∧ b = '_' ∧ c ≠ '_' then a :: '.' :: c :: replaceSingles rest
    else a :: replaceSingles (b :: c :: rest)
  | [a, b] => [a, b]
  | [a] => [a]
  | [] => []

def replaceTriple : Str → Str
  | a :: b :: c :: rest =>
    if a = '_' ∧ b = '_' ∧ c = '_' then '-' :: replaceTriple rest
    else a :: replaceTriple (b :: c :: rest)
  | [a, b] => [a, b]
  | [a] => [a]
  | [] => []

def replaceDouble : Str → Str
  | a :: b :: rest =>
    if a = '_' ∧ b = '_' then '_' :: replaceDouble rest
    else a :: replaceDouble (b :: rest)
  | [a] => [a]
  | [] => []

def ConvertKey (key : Str) : Str :=
  (replaceDouble (replaceTriple (replaceSingles key))).map Char.toLower

/-! ## The properties mapping

A Go `map[string]string` is modelled as an association list. Writing
`m[k] = v` removes any existing entry for `k` and appends the new one, so a
later write wins; the list order stands for one possible iteration order of
the map. -/

abbrev PropMap := List (Str × Str)

def mapInsert (m : PropMap) (k v : Str) : PropMap :=
  m.filter (fun p => decide (p.1 ≠ k)) ++ [(k, v)]

def mapLookup (m : PropMap) (k : Str) : Option Str :=
  match m with
  | [] => none
  | (k', v) :: rest => if k' = k then some v else mapLookup rest k

def keysOf (m : PropMap) : List Str := m.map (fun p => p.1)

/-! ## ConfigSpec and the small helpers from `ub.go` -/

structure ConfigSpec where
  Prefixes : List (Str × Bool)
  Excludes : List Str
  Renamed : List (Str × Str)
  Defaults : List (Str × Str)

/-- Go `Contains(slice []string, element string) bool`. -/
def Contains (slice : List Str) (element : Str) : Bool :=
  match slice with
  | [] => false
  | v :: rest => if v = element then true else Contains rest element

/-- Leftmost, non-overlapping splitting on a nonempty separator
`c0 :: srest`, as done by Go's `strings.Split`. The extra `Nat` is fuel
that makes the recursion structural (skipping a matched separator is not a
structural descent); any fuel at least the length of the string gives the
splitting itself. -/
def goSplitFuel (c0 : Char) (srest : Str) : Nat → Str → List Str
  | _, [] => [[]]
  | 0, _ :: _ => [[]]
  | fuel + 1, a :: l =>
    if (c0 :: srest).isPrefixOf (a :: l) then
      [] :: goSplitFuel c0 srest fuel (l.drop srest.length)
    else
      match goSplitFuel c0 srest fuel l with
      | [] => [[]]
      | h :: t => (a :: h) :: t

/-- Go `strings.Split(s, sep)`: for an empty separator the string explodes
into its characters, otherwise split on leftmost non-overlapping
occurrences of `sep`. -/
def goSplit (s sep : Str) : List Str :=
  match sep with
  | [] => s.map (fun c => [c])
  | c0 :: srest => goSplitFuel c0 srest s.length s

/-- Go `ListToMap`: each entry is split at `=`; only entries yielding
exactly two parts contribute. -/
def ListToMap (kvList : List Str) : PropMap :=
  kvList.foldl
    (fun m l =>
      match goSplit l ['='] with
      | [k, v] => mapInsert m k v
      | _ => m)
    []

/-- Go `KvStringToMap(kvString, sep)`. -/
def KvStringToMap (kvString : Str) (sep : Str) : PropMap :=
  ListToMap (goSplit kvString sep)

/-- Go `splitToMapDefaults(separator, defaultValues, value)`: the entries of
the value list are written over the map built from the defaults list. -/
def splitToMapDefaults (separator defaultValues value : Str) : PropMap :=
  (KvStringToMap value separator).foldl
    (fun values p => mapInsert values p.1 p.2)
    (KvStringToMap defaultValues separator)

/-- Go `GetEnvironment`: `ListToMap(os.Environ())`, with the raw
`NAME=value` strings of `os.Environ()` passed in explicitly. -/
def GetEnvironment (environ : List Str) : PropMap :=
  ListToMap environ

/-! ## PropertyBuilder: `BuildProperties`

The inner prefix loop of the Go code, with the Go map ranges made explicit
as lists. The slice `envKey[len(prefix)+1:]` panics when
`len(prefix)+1 > len(envKey)`; a panic is modelled as `none`. -/

def applyPrefixes (pfxs : List (Str × Bool)) (envKey envValue : Str)
    (config : PropMap) : Option PropMap :=
  match pfxs with
  | [] => some config
  | (pfx, keep) :: rest =>
    if pfx.isPrefixOf envKey then
      if keep then
        applyPrefixes rest envKey envValue
          (mapInsert config (ConvertKey envKey) envValue)
      else if pfx.length + 1 ≤ envKey.length then
        applyPrefixes rest envKey envValue
          (mapInsert config (ConvertKey (envKey.drop (pfx.length + 1))) envValue)
      else none
    else applyPrefixes rest envKey envValue config

/-- The body of the `for envKey, envValue := range environment` loop. -/
def applyEnvEntry (spec : ConfigSpec) (config : PropMap)
    (envKey envValue : Str) : Option PropMap :=
  match List.lookup envKey spec.Renamed with
  | some newKey => some (mapInsert config newKey envValue)
  | none =>
    if Contains spec.Excludes envKey then some config
    else applyPrefixes spec.Prefixes envKey envValue config

/-- Go `BuildProperties(spec, environment)`: seed the result with the
defaults, then run the loop body over the environment entries in the given
iteration order. -/
def BuildProperties (spec : ConfigSpec) (environment : List (Str × Str)) :
    Option PropMap :=
  environment.foldlM
    (fun config p => applyEnvEntry spec config p.1 p.2)
    (spec.Defaults.foldl (fun config p => mapInsert config p.1 p.2) [])

/-! ## PropertySerializer: `formatHeritage` and `writeConfig` -/

/-- Go `formatHeritage()`, with `time.Now().String()` passed in as `now`. -/
def formatHeritage (now : Str) : Str :=
  "# created by 'ub' from environment variables on ".toList ++ now

/-- Byte-wise lexicographic order on strings, as used by Go's
`sort.Strings`. -/
def strLe : Str → Str → Bool
  | [], _ => true
  | _ :: _, [] => false
  | a :: as, b :: bs => if a < b then true else if b < a then false else strLe as bs

/-- Go `writeConfig(writer, config)`: the heritage line (via `Fprintln`),
then one `key=value\n` line per key, keys sorted with `sort.Strings`. Since
`strLe` is a total, transitive and antisymmetric order, every comparison
sort of a list of strings returns the same list, so insertion sort is a
faithful model of `sort.Strings`. A missing key would print the zero value
`""`, hence `getD []`; with the key list taken from `config` this never
happens. -/
def writeConfig (now : Str) (config : PropMap) : Str :=
  formatHeritage now ++ '\n' ::
    (List.insertionSort (fun a b => strLe a b = true) (keysOf config)).foldl
      (fun acc n => acc ++ n ++ '=' :: (mapLookup config n).getD [] ++ ['\n'])
      []

/-! ## CLI entry points for rendering -/

/-- Go `renderConfig(writer, configSpec)`; the output written to `writer` is
returned (and `none` stands for the panic in `BuildProperties`). -/
def renderConfig (now : Str) (configSpec : ConfigSpec) (environ : List Str) :
    Option Str :=
  (BuildProperties configSpec (GetEnvironment environ)).map
    (fun config => writeConfig now config)

/-- Go `renderConfigViaPrefix(writer, envVarPrefix)` (name shortened). -/
def renderConfigViaPfx (now : Str) (envVarPfx : Str) (environ : List Str) :
    Option Str :=
  let spec : ConfigSpec :=
    { Prefixes := [(envVarPfx, false)], Excludes := [], Renamed := [],
      Defaults := [] }
  (BuildProperties spec (GetEnvironment environ)).map
    (fun config => writeConfig now config)

/-- Modelled from the spec: the implicit spec
`{prefixes: {prefix: false}, excludes: {}, renamed: {}, defaults: {}}`
that `buildAndWritePrefixOnly` is claimed to be equivalent to. -/
def implicitPfxSpec (envVarPfx : Str) : ConfigSpec :=
  { Prefixes := [(envVarPfx, false)], Excludes := [], Renamed := [],
    Defaults := [] }

/-! ## Basic lemmas about the map model -/

theorem mapLookup_append (l1 l2 : PropMap) (k : Str) :
    mapLookup (l1 ++ l2) k =
      match mapLookup l1 k with
      | some v => some v
      | none => mapLookup l2 k := by
  induction l1 with
  | nil => simp [mapLookup]
  | cons p rest ih =>
    by_cases h : p.1 = k
    · simp [mapLookup, h]
    · simp [mapLookup, h, ih]

theorem mapLookup_filter_self (m : PropMap) (k : Str) :
    mapLookup (m.filter (fun p => decide (p.1 ≠ k))) k = none := by
  induction m with
  | nil => simp [mapLookup]
  | cons p rest ih =>
    by_cases h : p.1 = k
    · simpa [List.filter_cons, h] using ih
    · simpa [List.filter_cons, h, mapLookup] using ih

theorem mapLookup_filter_ne (m : PropMap) (k k' : Str) (h : k' ≠ k) :
    mapLookup (m.filter (fun p => decide (p.1 ≠ k))) k' = mapLookup m k' := by
  induction m with
  | nil => simp
  | cons p rest ih =>
    by_cases hp : p.1 = k
    · rw [List.filter_cons_of_neg (by simp [hp]), ih]
      have hp' : ¬ p.1 = k' := by rw [hp]; exact fun hc => h hc.symm
      simp [mapLookup, hp']
    · rw [List.filter_cons_of_pos (by simp [hp])]
      by_cases hk : p.1 = k'
      · simp [mapLookup, hk]
      · simp only [mapLookup, if_neg hk]
        simpa using ih

theorem mapLookup_mapInsert_self (m : PropMap) (k v : Str) :
    mapLookup (mapInsert m k v) k = some v := by
  rw [mapInsert, mapLookup_append, mapLookup_filter_self]
  simp [mapLookup]

theorem mapLookup_mapInsert_ne (m : PropMap) (k v k' : Str) (h : k' ≠ k) :
    mapLookup (mapInsert m k v) k' = mapLookup m k' := by
  rw [mapInsert, mapLookup_append, mapLookup_filter_ne m k k' h]
  cases hm : mapLookup m k'
  · simp [mapLookup, Ne.symm h]
  · simp

theorem mapLookup_eq_none_iff (m : PropMap) (k : Str) :
    mapLookup m k = none ↔ k ∉ keysOf m := by
  induction m with
  | nil => simp [mapLookup, keysOf]
  | cons p rest ih =>
    by_cases h : p.1 = k
    · simp [mapLookup, keysOf, h]
    · simp [mapLookup, keysOf, h, ih, Ne.symm h]

theorem mapLookup_mem (m : PropMap) (k v : Str)
    (h : mapLookup m k = some v) : (k, v) ∈ m := by
  induction m with
  | nil => simp [mapLookup] at h
  | cons p rest ih =>
    by_cases hp : p.1 = k
    · simp only [mapLookup, if_pos hp] at h
      cases h
      have hkp : (k, p.2) = p := by rw [← hp]
      rw [hkp]
      exact List.mem_cons_self p rest
    · simp only [mapLookup, if_neg hp] at h
      exact List.mem_cons_of_mem _ (ih h)

/-- Inserting the entries of a list into `m0` and looking up: an entry of
the list wins if present, else the lookup falls through to `m0`. -/
theorem mapLookup_foldl_mapInsert (l : List (Str × Str)) (m0 : PropMap)
    (k : Str) :
    mapLookup (l.foldl (fun m p => mapInsert m p.1 p.2) m0) k =
      match mapLookup (l.foldl (fun m p => mapInsert m p.1 p.2) []) k with
      | some v => some v
      | none => mapLookup m0 k := by
  induction l generalizing m0 with
  | nil => simp [mapLookup]
  | cons p t ih =>
    simp only [List.foldl_cons]
    rw [ih (mapInsert m0 p.1 p.2), ih (mapInsert [] p.1 p.2)]
    cases htail : mapLookup (t.foldl (fun m p => mapInsert m p.1 p.2) []) k
    · by_cases hk : k = p.1
      · have h1 : mapLookup (mapInsert m0 p.1 p.2) k = some p.2 := by
          rw [hk]; exact mapLookup_mapInsert_self m0 p.1 p.2
        have h2 : mapLookup (mapInsert [] p.1 p.2) k = some p.2 := by
          rw [hk]; exact mapLookup_mapInsert_self [] p.1 p.2
        simp [h1, h2]
      · rw [mapLookup_mapInsert_ne _ _ _ _ hk, mapLookup_mapInsert_ne _ _ _ _ hk]
        simp [mapLookup]
    · simp

/-- Folding key/value pairs whose value is a function of the key: the final
lookup applies that function on the contained keys. -/
theorem mapLookup_foldl_pairs (ks : List Str) (f : Str → Str) (k : Str) :
    mapLookup
      ((ks.map (fun kk => (kk, f kk))).foldl
        (fun m p => mapInsert m p.1 p.2) []) k =
      if k ∈ ks then some (f k) else none := by
  induction ks with
  | nil => simp [mapLookup]
  | cons a t ih =>
    simp only [List.map_cons, List.foldl_cons]
    rw [mapLookup_foldl_mapInsert, ih]
    by_cases hmem : k ∈ t
    · simp [hmem]
    · by_cases hak : k = a
      · subst hak
        simp [hmem, mapLookup_mapInsert_self]
      · have h2 := mapLookup_mapInsert_ne ([] : PropMap) a (f a) k hak
        have hmem' : k ∉ a :: t := by simp [hak, hmem]
        simp [hmem, hmem', h2, mapLookup, Ne.symm hak]

theorem keysOf_mapInsert_nodup (m : PropMap) (k v : Str)
    (h : (keysOf m).Nodup) : (keysOf (mapInsert m k v)).Nodup := by
  have hk : keysOf (mapInsert m k v) =
      keysOf (m.filter (fun p => decide (p.1 ≠ k))) ++ [k] := by
    simp [mapInsert, keysOf]
  rw [hk, List.nodup_append]
  refine ⟨?_, List.nodup_singleton k, ?_⟩
  · exact List.Nodup.sublist (List.Sublist.map _ (List.filter_sublist m)) h
  · intro a ha hb
    simp only [List.mem_singleton] at hb
    subst hb
    rcases List.mem_map.mp ha with ⟨q, hq, hq1⟩
    rcases List.mem_filter.mp hq with ⟨_, hq2⟩
    simp only [decide_eq_true_eq] at hq2
    exact hq2 hq1

/-- Every successful `BuildProperties` result has pairwise distinct keys. -/
theorem buildProperties_keys_nodup (spec : ConfigSpec)
    (environment : List (Str × Str)) (m : PropMap)
    (h : BuildProperties spec environment = some m) : (keysOf m).Nodup := by
  have base : ∀ (l : List (Str × Str)) (m0 : PropMap), (keysOf m0).Nodup →
      (keysOf (l.foldl (fun c p => mapInsert c p.1 p.2) m0)).Nodup := by
    intro l
    induction l with
    | nil => intro m0 h0; simpa using h0
    | cons p t ih =>
      intro m0 h0
      exact ih _ (keysOf_mapInsert_nodup _ _ _ h0)
  have pfx : ∀ (pfxs : List (Str × Bool)) (ek ev : Str) (c c' : PropMap),
      (keysOf c).Nodup → applyPrefixes pfxs ek ev c = some c' →
      (keysOf c').Nodup := by
    intro pfxs
    induction pfxs with
    | nil =>
      intro ek ev c c' hc h'
      simp only [applyPrefixes, Option.some.injEq] at h'
      obtain rfl := h'
      exact hc
    | cons q t ih =>
      intro ek ev c c' hc h'
      simp only [applyPrefixes] at h'
      split at h'
      · split at h'
        · exact ih ek ev _ _ (keysOf_mapInsert_nodup _ _ _ hc) h'
        · split at h'
          · exact ih ek ev _ _ (keysOf_mapInsert_nodup _ _ _ hc) h'
          · exact absurd h' (by simp)
      · exact ih ek ev _ _ hc h'
  have entry : ∀ (sp : ConfigSpec) (c c' : PropMap) (ek ev : Str),
      (keysOf c).Nodup → applyEnvEntry sp c ek ev = some c' →
      (keysOf c').Nodup := by
    intro sp c c' ek ev hc h'
    simp only [applyEnvEntry] at h'
    split at h'
    · simp only [Option.some.injEq] at h'
      obtain rfl := h'
      exact keysOf_mapInsert_nodup _ _ _ hc
    · split at h'
      · simp only [Option.some.injEq] at h'
        obtain rfl := h'
        exact hc
      · exact pfx _ _ _ _ _ hc h'
  have loop : ∀ (l : List (Str × Str)) (c m' : PropMap),
      (keysOf c).Nodup →
      (l.foldlM (fun config p => applyEnvEntry spec config p.1 p.2) c
        = some m') → (keysOf m').Nodup := by
    intro l
    induction l with
    | nil =>
      intro c m' hc h'
      rw [List.foldlM_nil] at h'
      obtain rfl := Option.some.inj h'
      exact hc
    | cons p t ih =>
      intro c m' hc h'
      rw [List.foldlM_cons] at h'
      cases hstep : applyEnvEntry spec c p.1 p.2 with
      | none => rw [hstep] at h'; simp at h'
      | some c2 =>
        rw [hstep] at h'
        exact ih c2 m' (entry _ _ _ _ _ hc hstep) (by simpa using h')
  exact loop environment _ m (base spec.Defaults [] (by simp [keysOf])) h

/-! ## Splitting on a single character -/

/-- Splitting on one character, the only way `ub.go` itself calls
`strings.Split` from `ListToMap` (the separator `=`), written as a plain
structural recursion. -/
def splitChar (c0 : Char) : Str → List Str
  | [] => [[]]
  | a :: l =>
    if a = c0 then [] :: splitChar c0 l
    else
      match splitChar c0 l with
      | [] => [[]]
      | h :: t => (a :: h) :: t

theorem goSplitFuel_single (c0 : Char) :
    ∀ (n : Nat) (l : Str), l.length ≤ n →
      goSplitFuel c0 [] n l = splitChar c0 l := by
  intro n
  induction n with
  | zero =>
    intro l hl
    cases l with
    | nil => rfl
    | cons a t => simp at hl
  | succ n ih =>
    intro l hl
    cases l with
    | nil => rfl
    | cons a t =>
      simp only [List.length_cons, Nat.succ_le_succ_iff] at hl
      by_cases ha : a = c0
      · have hpre : ([c0] : Str).isPrefixOf (a :: t) = true := by
          simp [List.isPrefixOf, ha]
        simp [goSplitFuel, splitChar, hpre, ha, ih t hl]
      · have hpre : ([c0] : Str).isPrefixOf (a :: t) = false := by
          simp [List.isPrefixOf]
          exact fun hc => ha hc.symm
        simp [goSplitFuel, splitChar, hpre, ha, ih t hl]

theorem goSplit_single (l : Str) (c0 : Char) :
    goSplit l [c0] = splitChar c0 l :=
  goSplitFuel_single c0 l.length l (Nat.le_refl _)

theorem splitChar_ne_nil (c0 : Char) (l : Str) : splitChar c0 l ≠ [] := by
  cases l with
  | nil => simp [splitChar]
  | cons a t =>
    by_cases ha : a = c0
    · simp [splitChar, ha]
    · simp only [splitChar, if_neg ha]
      cases splitChar c0 t <;> simp

/-- Splitting a string that starts with a separator-free block followed by
the separator: the block is the first part. -/
theorem splitChar_clean_append (c0 : Char) (name l : Str)
    (h : c0 ∉ name) :
    splitChar c0 (name ++ c0 :: l) = name :: splitChar c0 l := by
  induction name with
  | nil => simp [splitChar]
  | cons a t ih =>
    have ha : a ≠ c0 := by
      intro hc
      exact h (by simp [hc])
    have ht : c0 ∉ t := fun hc => h (by simp [hc])
    simp only [List.cons_append, splitChar, List.append_eq, if_neg ha]
    rw [ih ht]

/-- Splitting a separator-free string gives back just that string. -/
theorem splitChar_clean (c0 : Char) (name : Str) (h : c0 ∉ name) :
    splitChar c0 name = [name] := by
  induction name with
  | nil => simp [splitChar]
  | cons a t ih =>
    have ha : a ≠ c0 := by
      intro hc
      exact h (by simp [hc])
    have ht : c0 ∉ t := fun hc => h (by simp [hc])
    simp [splitChar, if_neg ha, ih ht]

theorem splitChar_length_ge_two (c0 : Char) (l : Str) (h : c0 ∈ l) :
    2 ≤ (splitChar c0 l).length := by
  induction l with
  | nil => simp at h
  | cons a t ih =>
    by_cases ha : a = c0
    · have := splitChar_ne_nil c0 t
      simp only [splitChar, if_pos ha, List.length_cons]
      cases hsp : splitChar c0 t with
      | nil => exact absurd hsp this
      | cons x y => simp
    · have hmem : c0 ∈ t := by
        rcases List.mem_cons.mp h with h1 | h1
        · exact absurd h1.symm ha
        · exact h1
      have := ih hmem
      simp only [splitChar, if_neg ha]
      cases hsp : splitChar c0 t with
      | nil => exact absurd hsp (splitChar_ne_nil c0 t)
      | cons x y =>
        rw [hsp] at this
        simpa using this

/-! ## The lexicographic string order used by the serializer -/

theorem strLe_total : ∀ a b : Str, strLe a b = true ∨ strLe b a = true := by
  intro a
  induction a with
  | nil => intro b; left; rfl
  | cons x xs ih =>
    intro b
    cases b with
    | nil => right; rfl
    | cons y ys =>
      rcases lt_trichotomy x y with h | h | h
      · left; simp [strLe, h]
      · subst h
        rcases ih ys with h' | h'
        · left; simp [strLe, h', lt_irrefl]
        · right; simp [strLe, h', lt_irrefl]
      · right; simp [strLe, h]

theorem strLe_trans : ∀ a b c : Str,
    strLe a b = true → strLe b c = true → strLe a c = true := by
  intro a
  induction a with
  | nil => intro b c _ _; rfl
  | cons x xs ih =>
    intro b c hab hbc
    cases b with
    | nil => simp [strLe] at hab
    | cons y ys =>
      cases c with
      | nil => simp [strLe] at hbc
      | cons z zs =>
        simp only [strLe] at hab hbc ⊢
        rcases lt_trichotomy x y with h1 | h1 | h1
        · rcases lt_trichotomy y z with h2 | h2 | h2
          · simp [lt_trans h1 h2]
          · subst h2; simp [h1]
          · rw [if_neg (lt_asymm h2), if_pos h2] at hbc
            simp at hbc
        · subst h1
          rcases lt_trichotomy x z with h2 | h2 | h2
          · simp [h2]
          · subst h2
            rw [if_neg (lt_irrefl x), if_neg (lt_irrefl x)] at hab hbc ⊢
            exact ih ys zs hab hbc
          · rw [if_neg (lt_asymm h2), if_pos h2] at hbc
            simp at hbc
        · rw [if_neg (lt_asymm h1), if_pos h1] at hab
          simp at hab

theorem strLe_antisymm : ∀ a b : Str,
    strLe a b = true → strLe b a = true → a = b := by
  intro a
  induction a with
  | nil =>
    intro b _ hba
    cases b with
    | nil => rfl
    | cons y ys => simp [strLe] at hba
  | cons x xs ih =>
    intro b hab hba
    cases b with
    | nil => simp [strLe] at hab
    | cons y ys =>
      simp only [strLe] at hab hba
      rcases lt_trichotomy x y with h | h | h
      · rw [if_neg (lt_asymm h), if_pos h] at hba
        simp at hba
      · subst h
        rw [if_neg (lt_irrefl x), if_neg (lt_irrefl x)] at hab hba
        rw [ih ys hab hba]
      · rw [if_neg (lt_asymm h), if_pos h] at hab
        simp at hab

instance : IsTotal Str (fun a b => strLe a b = true) := ⟨strLe_total⟩

instance : IsTrans Str (fun a b => strLe a b = true) := ⟨strLe_trans⟩

instance : IsAntisymm Str (fun a b => strLe a b = true) := ⟨strLe_antisymm⟩

/-! ## More lemmas about folded insertions -/

theorem foldl_mapInsert_nodup (l : List (Str × Str)) :
    ∀ (m0 : PropMap), (keysOf m0).Nodup →
      (keysOf (l.foldl (fun m p => mapInsert m p.1 p.2) m0)).Nodup := by
  induction l with
  | nil => intro m0 h0; simpa using h0
  | cons p t ih => intro m0 h0; exact ih _ (keysOf_mapInsert_nodup _ _ _ h0)

theorem listToMap_keys_nodup (kvList : List Str) :
    (keysOf (ListToMap kvList)).Nodup := by
  have aux : ∀ (l : List Str) (m0 : PropMap), (keysOf m0).Nodup →
      (keysOf (l.foldl
        (fun m e =>
          match goSplit e ['='] with
          | [k, v] => mapInsert m k v
          | _ => m)
        m0)).Nodup := by
    intro l
    induction l with
    | nil => intro m0 h0; simpa using h0
    | cons e t ih =>
      intro m0 h0
      simp only [List.foldl_cons]
      cases hsp : goSplit e ['='] with
      | nil => exact ih m0 h0
      | cons x xs =>
        cases xs with
        | nil => exact ih m0 h0
        | cons y ys =>
          cases ys with
          | nil => exact ih _ (keysOf_mapInsert_nodup _ _ _ h0)
          | cons z zs => exact ih m0 h0
  exact aux kvList [] (by simp [keysOf])

theorem kvStringToMap_keys_nodup (s sep : Str) :
    (keysOf (KvStringToMap s sep)).Nodup :=
  listToMap_keys_nodup (goSplit s sep)

/-- Lookup in a map rebuilt by inserting the entries of a list with
pairwise-distinct keys: the same as association-list lookup. -/
theorem mapLookup_foldl_of_nodup (l : List (Str × Str))
    (h : (keysOf l).Nodup) (k : Str) :
    mapLookup (l.foldl (fun m p => mapInsert m p.1 p.2) []) k =
      mapLookup l k := by
  induction l with
  | nil => rfl
  | cons p t ih =>
    simp only [keysOf, List.map_cons, List.nodup_cons] at h
    simp only [List.foldl_cons]
    rw [mapLookup_foldl_mapInsert, ih h.2]
    by_cases hk : k = p.1
    · have hnone : mapLookup t k = none :=
        (mapLookup_eq_none_iff t k).mpr (by rw [hk]; simpa [keysOf] using h.1)
      rw [hnone]
      have h2 : mapLookup (mapInsert [] p.1 p.2) k = some p.2 := by
        rw [hk]; exact mapLookup_mapInsert_self [] p.1 p.2
      simp [mapLookup, hk, h2]
    · cases ht : mapLookup t k with
      | none =>
        have h2 := mapLookup_mapInsert_ne ([] : PropMap) p.1 p.2 k hk
        simp [mapLookup, Ne.symm hk, ht, h2]
      | some v =>
        simp [mapLookup, Ne.symm hk, ht]

/-! ## Claim C1 -/

/-- C1: the claim states that `BuildProperties` never raises an error, in
particular when an environment variable name equals a `keepPrefix=false`
prefix exactly. In the code, `envKey[len(prefix)+1:]` is then a slice with
a lower bound beyond the string length, a runtime panic (modelled as
`none`): the code contradicts the claimed guarantee. -/
theorem c1_exact_match_build_error :
    BuildProperties
      { Prefixes := [("KAFKA".toList, false)], Excludes := [], Renamed := [],
        Defaults := [] }
      [("KAFKA".toList, "v".toList)] = none := by decide

/-! ## Claim C3 -/

/-- C3: `ConvertKey` reproduces the six literal examples of the spec (they
are also the six assertions of `TestConvertKey`). -/
theorem c3_convertKey_examples :
    ConvertKey "KEY".toList = "key".toList ∧
    ConvertKey "KEY_FOO".toList = "key.foo".toList ∧
    ConvertKey "KEY__UNDERSCORE".toList = "key_underscore".toList ∧
    ConvertKey "KEY_WITH__UNDERSCORE_AND__MORE".toList =
      "key.with_underscore.and_more".toList ∧
    ConvertKey "KEY___DASH".toList = "key-dash".toList ∧
    ConvertKey "KEY_WITH___DASH_AND___MORE__UNDERSCORE".toList =
      "key.with-dash.and-more_underscore".toList := by decide

/-! ## Claim C4 -/

/-- C4: the claim states that `BuildProperties` returns the same mapping for
two evaluations on the same spec and environment snapshot, thanks to a
defined deterministic iteration order. The code iterates Go maps, whose
order is randomized and nowhere pinned down. The two lists below are the
same snapshot `{KAFKA_FOO: "1", KAFKA_foo: "2"}` in its two iteration
orders; both names convert to the key `foo`, and the two runs disagree on
its value, so the result depends on the unspecified order. -/
theorem c4_iteration_order_changes_result :
    (BuildProperties
        { Prefixes := [("KAFKA".toList, false)], Excludes := [],
          Renamed := [], Defaults := [] }
        [("KAFKA_FOO".toList, "1".toList),
         ("KAFKA_foo".toList, "2".toList)]).map
      (fun m => mapLookup m "foo".toList) = some (some "2".toList) ∧
    (BuildProperties
        { Prefixes := [("KAFKA".toList, false)], Excludes := [],
          Renamed := [], Defaults := [] }
        [("KAFKA_foo".toList, "2".toList),
         ("KAFKA_FOO".toList, "1".toList)]).map
      (fun m => mapLookup m "foo".toList) = some (some "1".toList) := by
  decide

/-! ## Claim C8 -/

/-- C8: `splitToMapDefaults` returns the union of the two parsed mappings,
the value list winning on key collisions (first conjunct, for arbitrary
arguments), and on the spec's concrete example it returns `{a:1, b:3}`
(second conjunct). -/
theorem c8_splitToMapDefaults_union (separator defaultValues value k : Str) :
    (mapLookup (splitToMapDefaults separator defaultValues value) k =
      match mapLookup (KvStringToMap value separator) k with
      | some v => some v
      | none => mapLookup (KvStringToMap defaultValues separator) k) ∧
    splitToMapDefaults ",".toList "a=1,b=2".toList "b=3".toList =
      [("a".toList, "1".toList), ("b".toList, "3".toList)] := by
  constructor
  · rw [splitToMapDefaults, mapLookup_foldl_mapInsert,
      mapLookup_foldl_of_nodup _ (kvStringToMap_keys_nodup value separator) k]
  · decide

/-! ## Claim C9 -/

/-- C9: the prefix-only entry point is the full spec-driven build on the
implicit spec `{prefixes: {prefix: false}, excludes: {}, renamed: {},
defaults: {}}`: both build the same `ConfigSpec`, call `BuildProperties`
on the same environment snapshot and serialize with `writeConfig`. -/
theorem c9_viaPfx_is_implicit_spec (now envVarPfx : Str)
    (environ : List Str) :
    renderConfigViaPfx now envVarPfx environ =
      renderConfig now (implicitPfxSpec envVarPfx) environ := rfl

/-! ## Claim C6 -/

/-- C6: `Renamed` wins over `Excludes` and `Prefixes`. For a renamed
variable the loop body writes `result[Renamed[name]] = value` and runs no
exclusion or prefix logic at all — the first conjunct holds for every
`Excludes` and `Prefixes` whatsoever (in particular when the name is
excluded or matches prefixes). The second conjunct: after a full build in
which the renamed variable is processed last, the target key holds the
variable's value. -/
theorem c6_renamed_precedence (pfxs : List (Str × Bool)) (excl : List Str)
    (ren dfl : List (Str × Str)) (envKey envValue newKey : Str)
    (h : List.lookup envKey ren = some newKey) :
    (∀ config : PropMap,
      applyEnvEntry ⟨pfxs, excl, ren, dfl⟩ config envKey envValue =
        some (mapInsert config newKey envValue)) ∧
    (∀ (env : List (Str × Str)) (m : PropMap),
      BuildProperties ⟨pfxs, excl, ren, dfl⟩ (env ++ [(envKey, envValue)]) =
        some m →
      mapLookup m newKey = some envValue) := by
  have hstep : ∀ config : PropMap,
      applyEnvEntry ⟨pfxs, excl, ren, dfl⟩ config envKey envValue =
        some (mapInsert config newKey envValue) := by
    intro config
    simp [applyEnvEntry, h]
  refine ⟨hstep, ?_⟩
  intro env m hm
  rw [BuildProperties, List.foldlM_append] at hm
  cases henv : List.foldlM
      (fun config p =>
        applyEnvEntry ⟨pfxs, excl, ren, dfl⟩ config p.1 p.2)
      (List.foldl (fun config p => mapInsert config p.1 p.2) []
        (ConfigSpec.Defaults ⟨pfxs, excl, ren, dfl⟩)) env with
  | none =>
    rw [henv] at hm
    simp at hm
  | some c =>
    rw [henv] at hm
    have hm' : applyEnvEntry ⟨pfxs, excl, ren, dfl⟩ c envKey envValue =
        some m := by simpa using hm
    rw [hstep c] at hm'
    obtain rfl := Option.some.inj hm'
    exact mapLookup_mapInsert_self c newKey envValue

/-- Witness for C6: the variable `A` is renamed to `k`, is also excluded,
and also matches the prefix `A` with `keepPrefix=false` (which would even
panic if the prefix logic ran, since no separator follows); renaming still
wins. -/
theorem c6_witness :
    applyEnvEntry
      ⟨[("A".toList, false)], ["A".toList], [("A".toList, "k".toList)], []⟩
      [] "A".toList "1".toList =
      some (mapInsert [] "k".toList "1".toList) :=
  (c6_renamed_precedence [("A".toList, false)] ["A".toList]
      [("A".toList, "k".toList)] [] "A".toList "1".toList "k".toList
      (by decide)).1 []

/-! ## Claim C10 -/

theorem listToMap_skip (pre post : List Str) (entry : Str)
    (h : ∀ k v : Str, goSplit entry ['='] ≠ [k, v]) :
    ListToMap (pre ++ entry :: post) = ListToMap (pre ++ post) := by
  have hid : ∀ m : PropMap,
      (match goSplit entry ['='] with
       | [k, v] => mapInsert m k v
       | _ => m) = m := by
    intro m
    cases hsp : goSplit entry ['='] with
    | nil => rfl
    | cons x xs =>
      cases xs with
      | nil => rfl
      | cons y ys =>
        cases ys with
        | nil => exact absurd hsp (h x y)
        | cons z zs => rfl
  simp only [ListToMap, List.foldl_append, List.foldl_cons, hid]

theorem listToMap_last_pair (pre : List Str) (name value : Str)
    (hsp : goSplit (name ++ '=' :: value) ['='] = [name, value]) :
    ListToMap (pre ++ [name ++ '=' :: value]) =
      mapInsert (ListToMap pre) name value := by
  simp only [ListToMap, List.foldl_append, List.foldl_cons, List.foldl_nil,
    hsp]

/-- C10: `ListToMap` keeps an entry only if splitting it on `=` gives
exactly two parts. First conjunct: an entry with no `=` is dropped.
Second conjunct: an `os.Environ()` entry `name=value` whose value contains
a further `=` splits into three or more parts, so the variable is silently
absent from the snapshot `GetEnvironment` builds. Third conjunct: a
well-formed entry whose name and value are `=`-free is kept with that name
and value. -/
theorem c10_listToMap_drops_multi_eq (pre post : List Str)
    (name value entry : Str) :
    (('=' : Char) ∉ entry →
      ListToMap (pre ++ entry :: post) = ListToMap (pre ++ post)) ∧
    (('=' : Char) ∉ name → ('=' : Char) ∈ value →
      GetEnvironment (pre ++ (name ++ '=' :: value) :: post) =
        GetEnvironment (pre ++ post)) ∧
    (('=' : Char) ∉ name → ('=' : Char) ∉ value →
      mapLookup (ListToMap (pre ++ [name ++ '=' :: value])) name =
        some value) := by
  refine ⟨?_, ?_, ?_⟩
  · intro h
    refine listToMap_skip pre post entry (fun k v hc => ?_)
    rw [goSplit_single, splitChar_clean '=' entry h] at hc
    cases hc
  · intro hn hv
    simp only [GetEnvironment]
    refine listToMap_skip pre post _ (fun k v hc => ?_)
    rw [goSplit_single, splitChar_clean_append '=' name value hn] at hc
    have htl : splitChar '=' value = [v] := by
      injection hc with h1 h2
    have hlen := splitChar_length_ge_two '=' value hv
    rw [htl] at hlen
    simp at hlen
  · intro hn hv
    rw [listToMap_last_pair pre name value
      (by rw [goSplit_single, splitChar_clean_append '=' name value hn,
        splitChar_clean '=' value hv])]
    exact mapLookup_mapInsert_self _ name value

/-- Witness for C10: the entry `junk` (no `=`) is dropped, the entry
`N=x=y` (value contains `=`) is dropped from the snapshot, and `n=v` is
kept. -/
theorem c10_witness :
    (ListToMap ["a=1".toList, "junk".toList, "b=2".toList] =
      ListToMap ["a=1".toList, "b=2".toList]) ∧
    (GetEnvironment ["a=1".toList, "N=x=y".toList, "b=2".toList] =
      GetEnvironment ["a=1".toList, "b=2".toList]) ∧
    mapLookup (ListToMap ["a=1".toList, "n=v".toList]) "n".toList =
      some "v".toList := by
  have h := c10_listToMap_drops_multi_eq ["a=1".toList] ["b=2".toList]
    "N".toList "x=y".toList "junk".toList
  have h2 := c10_listToMap_drops_multi_eq ["a=1".toList] []
    "n".toList "v".toList "junk".toList
  exact ⟨h.1 (by decide), h.2.1 (by decide) (by decide),
    h2.2.2 (by decide) (by decide)⟩

/-! ## Claim C7 -/

/-- The key order `writeConfig` emits. -/
def sortedKeys (m : PropMap) : List Str :=
  List.insertionSort (fun a b => strLe a b = true) (keysOf m)

/-- Concatenation of a list of strings. -/
def strConcat : List Str → Str
  | [] => []
  | s :: rest => s ++ strConcat rest

theorem writeConfig_foldl (config : PropMap) :
    ∀ (ks : List Str) (acc : Str),
      ks.foldl
        (fun acc n => acc ++ n ++ '=' :: (mapLookup config n).getD [] ++ ['\n'])
        acc =
      acc ++ strConcat
        (ks.map (fun n => n ++ '=' :: (mapLookup config n).getD [] ++ ['\n'])) := by
  intro ks
  induction ks with
  | nil => intro acc; simp [strConcat]
  | cons a t ih =>
    intro acc
    simp only [List.foldl_cons, List.map_cons, strConcat, ih]
    simp [List.append_assoc]

/-- C7: `writeConfig` writes the heritage line first, then exactly the
records `key=value\n` of the sorted keys with the values verbatim (first
conjunct); the key order is ascending in the byte-lexicographic order
(second conjunct); and the output is a function of the abstract mapping
and the timestamp alone — any two association lists with the same lookup
function (iteration orders of the same Go map) produce byte-identical
output (third conjunct). -/
theorem c7_writeConfig_deterministic (now : Str) (m : PropMap)
    (hnd : (keysOf m).Nodup) :
    (writeConfig now m =
      formatHeritage now ++ '\n' ::
        strConcat ((sortedKeys m).map
          (fun k => k ++ '=' :: (mapLookup m k).getD [] ++ ['\n']))) ∧
    List.Pairwise (fun a b => strLe a b = true) (sortedKeys m) ∧
    (∀ m2 : PropMap, (keysOf m2).Nodup →
      (∀ k : Str, mapLookup m k = mapLookup m2 k) →
      writeConfig now m = writeConfig now m2) := by
  refine ⟨?_, ?_, ?_⟩
  · rw [writeConfig, ← sortedKeys, writeConfig_foldl m (sortedKeys m) []]
    rfl
  · exact List.sorted_insertionSort _ _
  · intro m2 hnd2 hlook
    have hmem : ∀ k : Str, k ∈ keysOf m ↔ k ∈ keysOf m2 := by
      intro k
      constructor
      · intro hk
        by_contra hk2
        have h2 := (mapLookup_eq_none_iff m2 k).mpr hk2
        rw [← hlook k] at h2
        exact (mapLookup_eq_none_iff m k).mp h2 hk
      · intro hk
        by_contra hk2
        have h2 := (mapLookup_eq_none_iff m k).mpr hk2
        rw [hlook k] at h2
        exact (mapLookup_eq_none_iff m2 k).mp h2 hk
    have hperm : (keysOf m).Perm (keysOf m2) :=
      (List.perm_ext_iff_of_nodup hnd hnd2).mpr hmem
    have hsorted : sortedKeys m = sortedKeys m2 := by
      have hp1 : (sortedKeys m).Perm (keysOf m) :=
        List.perm_insertionSort _ _
      have hp2 : (keysOf m2).Perm (sortedKeys m2) :=
        (List.perm_insertionSort _ _).symm
      exact List.eq_of_perm_of_sorted (hp1.trans (hperm.trans hp2))
        (List.sorted_insertionSort _ _) (List.sorted_insertionSort _ _)
    rw [writeConfig, writeConfig, ← sortedKeys, ← sortedKeys,
      writeConfig_foldl m (sortedKeys m) [],
      writeConfig_foldl m2 (sortedKeys m2) [], hsorted]
    have hmapeq :
        (sortedKeys m2).map
            (fun n => n ++ '=' :: (mapLookup m n).getD [] ++ ['\n']) =
          (sortedKeys m2).map
            (fun n => n ++ '=' :: (mapLookup m2 n).getD [] ++ ['\n']) :=
      List.map_congr_left (fun k _ => by rw [hlook k])
    rw [hmapeq]

/-- Witness for C7: a concrete two-entry mapping, its serialized form, and
the same mapping in the other iteration order serializing identically. -/
theorem c7_witness :
    (writeConfig "T".toList
        [("b".toList, "2".toList), ("a".toList, "1".toList)] =
      formatHeritage "T".toList ++ '\n' ::
        strConcat
          ((sortedKeys [("b".toList, "2".toList), ("a".toList, "1".toList)]).map
            (fun k => k ++ '=' ::
              (mapLookup [("b".toList, "2".toList), ("a".toList, "1".toList)]
                k).getD [] ++ ['\n']))) ∧
    writeConfig "T".toList
        [("b".toList, "2".toList), ("a".toList, "1".toList)] =
      writeConfig "T".toList
        [("a".toList, "1".toList), ("b".toList, "2".toList)] := by
  have h := c7_writeConfig_deterministic "T".toList
    [("b".toList, "2".toList), ("a".toList, "1".toList)] (by decide)
  refine ⟨h.1, h.2.2 [("a".toList, "1".toList), ("b".toList, "2".toList)]
    (by decide) ?_⟩
  intro k
  by_cases h1 : (['b'] : Str) = k
  · subst h1
    decide
  · by_cases h2 : (['a'] : Str) = k
    · subst h2
      decide
    · simp [mapLookup, h1, h2]

/-! ## Claim C5 -/

/-- C5 counterexample: the round-trip claim is quantified over every
`ConfigSpec`. For the spec whose defaults map `k` to the two-line value
`"a\nb"` (and an empty environment), serializing and re-parsing the output
as `key=value` lines loses the part after the newline: the parse returns
`{k: "a"}`, not the built mapping `{k: "a\nb"}`. The timestamp is taken
empty, so the heritage line itself is newline-free. -/
theorem c5_counterexample :
    (BuildProperties
        { Prefixes := [], Excludes := [], Renamed := [],
          Defaults := [("k".toList, "a\nb".toList)] } []).map
      (fun m => ListToMap ((goSplit (writeConfig [] m) ['\n']).drop 1)) ≠
    BuildProperties
      { Prefixes := [], Excludes := [], Renamed := [],
        Defaults := [("k".toList, "a\nb".toList)] } [] := by decide

theorem splitChar_concat_records (v : Str → Str) :
    ∀ ks : List Str,
      (∀ k ∈ ks, ('\n' : Char) ∉ k ∧ ('\n' : Char) ∉ v k) →
      splitChar '\n'
        (strConcat (ks.map (fun k => k ++ '=' :: v k ++ ['\n']))) =
        ks.map (fun k => k ++ '=' :: v k) ++ [[]] := by
  intro ks
  induction ks with
  | nil => intro _; rfl
  | cons a t ih =>
    intro hc
    have ha := hc a (List.mem_cons_self a t)
    have hclean : ('\n' : Char) ∉ a ++ '=' :: v a := by
      intro hmem
      rcases List.mem_append.mp hmem with h | h
      · exact ha.1 h
      · rcases List.mem_cons.mp h with h | h
        · exact absurd h (by decide)
        · exact ha.2 h
    have hassoc :
        (a ++ '=' :: v a ++ ['\n']) ++
            strConcat (t.map (fun k => k ++ '=' :: v k ++ ['\n'])) =
          (a ++ '=' :: v a) ++
            '\n' :: strConcat (t.map (fun k => k ++ '=' :: v k ++ ['\n'])) := by
      simp [List.append_assoc]
    simp only [List.map_cons, strConcat]
    rw [hassoc, splitChar_clean_append '\n' _ _ hclean,
      ih (fun k hk => hc k (List.mem_cons_of_mem a hk))]
    rfl

theorem foldl_ltm_records (v : Str → Str) :
    ∀ (ks : List Str) (m0 : PropMap),
      (∀ k ∈ ks, ('=' : Char) ∉ k ∧ ('=' : Char) ∉ v k) →
      (ks.map (fun k => k ++ '=' :: v k)).foldl
        (fun m l =>
          match goSplit l ['='] with
          | [k, v] => mapInsert m k v
          | _ => m) m0 =
      (ks.map (fun k => (k, v k))).foldl
        (fun m p => mapInsert m p.1 p.2) m0 := by
  intro ks
  induction ks with
  | nil => intro m0 _; rfl
  | cons a t ih =>
    intro m0 hc
    have ha := hc a (List.mem_cons_self a t)
    have hsp : goSplit (a ++ '=' :: v a) ['='] = [a, v a] := by
      rw [goSplit_single, splitChar_clean_append '=' a (v a) ha.1,
        splitChar_clean '=' (v a) ha.2]
    simp only [List.map_cons, List.foldl_cons, hsp]
    exact ih (mapInsert m0 a (v a))
      (fun k hk => hc k (List.mem_cons_of_mem a hk))

theorem listToMap_record_lines (v : Str → Str) (ks : List Str)
    (hc : ∀ k ∈ ks, ('=' : Char) ∉ k ∧ ('=' : Char) ∉ v k) :
    ListToMap (ks.map (fun k => k ++ '=' :: v k) ++ [[]]) =
      (ks.map (fun k => (k, v k))).foldl
        (fun m p => mapInsert m p.1 p.2) [] := by
  rw [listToMap_skip (ks.map (fun k => k ++ '=' :: v k)) [] []
    (fun kk vv hcc => by simp [goSplit, goSplitFuel] at hcc)]
  rw [List.append_nil, ListToMap]
  exact foldl_ltm_records v ks [] hc

/-- C5 amended: the round-trip holds for every build whose resulting keys
and values are free of `=` and of line terminators (and whose heritage
timestamp is newline-free): parsing the non-heritage lines of the
serialized output as `key=value` pairs reproduces the built mapping
exactly. The counterexample forces exactly this restriction: a newline in
a value splits its entry across two lines (and a `=` in a key or value
changes where the pair splits). -/
theorem c5_roundtrip_amended (spec : ConfigSpec)
    (environment : List (Str × Str)) (now : Str) (m : PropMap)
    (hb : BuildProperties spec environment = some m)
    (hnow : ('\n' : Char) ∉ now)
    (hclean : ∀ p ∈ m, ('=' : Char) ∉ p.1 ∧ ('\n' : Char) ∉ p.1 ∧
      ('=' : Char) ∉ p.2 ∧ ('\n' : Char) ∉ p.2)
    (k : Str) :
    mapLookup (ListToMap ((goSplit (writeConfig now m) ['\n']).drop 1)) k =
      mapLookup m k := by
  have h1 : writeConfig now m =
      formatHeritage now ++ '\n' ::
        strConcat ((sortedKeys m).map
          (fun kk => kk ++ '=' :: (mapLookup m kk).getD [] ++ ['\n'])) := by
    rw [writeConfig, ← sortedKeys, writeConfig_foldl m (sortedKeys m) []]
    rfl
  have hher : ('\n' : Char) ∉ formatHeritage now := by
    rw [formatHeritage]
    intro hmem
    rcases List.mem_append.mp hmem with h | h
    · exact absurd h (by decide)
    · exact hnow h
  have hkeymem : ∀ kk, kk ∈ sortedKeys m ↔ kk ∈ keysOf m := by
    intro kk
    exact (List.perm_insertionSort (fun a b => strLe a b = true)
      (keysOf m)).mem_iff
  have hkeyclean : ∀ kk ∈ sortedKeys m,
      (('\n' : Char) ∉ kk ∧ ('\n' : Char) ∉ (mapLookup m kk).getD []) ∧
      (('=' : Char) ∉ kk ∧ ('=' : Char) ∉ (mapLookup m kk).getD []) := by
    intro kk hk
    have hkm : kk ∈ keysOf m := (hkeymem kk).mp hk
    cases hvk : mapLookup m kk with
    | none => exact absurd hkm ((mapLookup_eq_none_iff m kk).mp hvk)
    | some vk =>
      have hpm := mapLookup_mem m kk vk hvk
      have hcl := hclean (kk, vk) hpm
      simp only [Option.getD_some]
      exact ⟨⟨hcl.2.1, hcl.2.2.2⟩, ⟨hcl.1, hcl.2.2.1⟩⟩
  have h2 : (goSplit (writeConfig now m) ['\n']).drop 1 =
      (sortedKeys m).map (fun kk => kk ++ '=' :: (mapLookup m kk).getD []) ++
        [[]] := by
    rw [h1, goSplit_single,
      splitChar_clean_append '\n' (formatHeritage now) _ hher,
      List.drop_one, List.tail_cons,
      splitChar_concat_records (fun kk => (mapLookup m kk).getD [])
        (sortedKeys m) (fun kk hk => (hkeyclean kk hk).1)]
  rw [h2, listToMap_record_lines (fun kk => (mapLookup m kk).getD [])
    (sortedKeys m) (fun kk hk => (hkeyclean kk hk).2),
    mapLookup_foldl_pairs (sortedKeys m)
      (fun kk => (mapLookup m kk).getD []) k]
  by_cases hk : k ∈ sortedKeys m
  · rw [if_pos hk]
    have hkm : k ∈ keysOf m := (hkeymem k).mp hk
    cases hvk : mapLookup m k with
    | none => exact absurd hkm ((mapLookup_eq_none_iff m k).mp hvk)
    | some vk => simp [hvk]
  · rw [if_neg hk]
    have hkm : k ∉ keysOf m := fun hc => hk ((hkeymem k).mpr hc)
    exact ((mapLookup_eq_none_iff m k).mpr hkm).symm

/-- Witness for C5: a one-entry build (default `a=1`, empty environment,
empty timestamp) round-trips at the key `a`. -/
theorem c5_witness :
    mapLookup
      (ListToMap
        ((goSplit (writeConfig [] [("a".toList, "1".toList)]) ['\n']).drop 1))
      "a".toList =
      mapLookup [("a".toList, "1".toList)] "a".toList :=
  c5_roundtrip_amended
    { Prefixes := [], Excludes := [], Renamed := [],
      Defaults := [("a".toList, "1".toList)] }
    [] [] [("a".toList, "1".toList)] (by decide) (by decide) (by decide)
    "a".toList

/-! ## Claim C2

The counterexample: the regex engine replaces leftmost, non-overlapping
matches of `[^_]_[^_]`. In `A_B_C` the first match consumes `A_B`, so the
second underscore has no unconsumed left neighbour and survives. -/

/-- C2 counterexample: the claim says both single underscores of `A_B_C`
become dots (`a.b.c`); the code leaves the second one (`a.b_c`). -/
theorem c2_counterexample :
    ConvertKey "A_B_C".toList = "a.b_c".toList ∧
    ConvertKey "A_B_C".toList ≠ "a.b.c".toList := by decide

/-- Decomposition of a name into non-underscore chunks separated by
underscore runs: `seg c n rest` is the chunk `c`, then a run of `n`
underscores, then the remainder; `last c` is the final chunk. -/
inductive Blocks where
  | last (c : Str) : Blocks
  | seg (c : Str) (n : Nat) (rest : Blocks) : Blocks

def build : Blocks → Str
  | .last c => c
  | .seg c n rest => c ++ List.replicate n '_' ++ build rest

def firstChunk : Blocks → Str
  | .last c => c
  | .seg c _ _ => c

def NoUnd (c : Str) : Bool := c.all (fun x => x != '_')

/-- Wellformedness of the non-first blocks: chunks between runs are
nonempty (adjacent runs merge into one run), no chunk contains an
underscore, and every run has length 1 to 3. -/
def wfTail : Blocks → Bool
  | .last c => NoUnd c
  | .seg c n rest =>
    !c.isEmpty && NoUnd c && decide (1 ≤ n) && decide (n ≤ 3) && wfTail rest

/-- Wellformedness: like `wfTail` but the leading chunk may be empty (a
name may start with underscores). -/
def wfB : Blocks → Bool
  | .last c => NoUnd c
  | .seg c n rest =>
    NoUnd c && decide (1 ≤ n) && decide (n ≤ 3) && wfTail rest

/-- No two single-underscore runs separated by a one-character chunk (the
overlap pattern `x_y_z` on which the non-overlapping regex skips the
second match). -/
def noOv : Blocks → Bool
  | .last _ => true
  | .seg _ n rest =>
    (match rest with
     | .seg c2 n2 _ =>
       !(decide (n = 1) && decide (c2.length = 1) && decide (n2 = 1))
     | .last _ => true) && noOv rest

/-- Replacement of one underscore run by the singles pass: a run of one
with a neighbour on both sides becomes `.`, any other run is kept. -/
def sRep (leftNe rightNe : Bool) (n : Nat) : Str :=
  if n = 1 then (if leftNe && rightNe then ['.'] else ['_'])
  else List.replicate n '_'

/-- After the `___` pass: additionally a run of three becomes `-`. -/
def tRep (leftNe rightNe : Bool) (n : Nat) : Str :=
  if n = 1 then (if leftNe && rightNe then ['.'] else ['_'])
  else if n = 3 then ['-'] else List.replicate n '_'

/-- After the `__` pass: additionally a run of two becomes `_`. -/
def bRep (leftNe rightNe : Bool) (n : Nat) : Str :=
  if n = 1 then (if leftNe && rightNe then ['.'] else ['_'])
  else if n = 3 then ['-'] else if n = 2 then ['_']
  else List.replicate n '_'

def buildS : Blocks → Str
  | .last c => c
  | .seg c n rest =>
    c ++ sRep (!c.isEmpty) (!(firstChunk rest).isEmpty) n ++ buildS rest

def buildT : Blocks → Str
  | .last c => c
  | .seg c n rest =>
    c ++ tRep (!c.isEmpty) (!(firstChunk rest).isEmpty) n ++ buildT rest

/-- The run-by-run conversion rule (before lowercasing): an interior run of
one underscore becomes `.`, a boundary run of one stays `_`, a run of two
becomes `_`, a run of three becomes `-`. -/
def specBlocks : Blocks → Str
  | .last c => c
  | .seg c n rest =>
    c ++ bRep (!c.isEmpty) (!(firstChunk rest).isEmpty) n ++ specBlocks rest

/-! ### Step lemmas for the singles pass -/

theorem rs_und_cons (l : Str) :
    replaceSingles ('_' :: l) = '_' :: replaceSingles l := by
  match l with
  | [] => rfl
  | [b] => rfl
  | b :: c :: t => simp [replaceSingles]

theorem rs_cons_cons_ne (a b : Char) (hb : b ≠ '_') (l : Str) :
    replaceSingles (a :: b :: l) = a :: replaceSingles (b :: l) := by
  match l with
  | [] => rfl
  | c :: t => simp [replaceSingles, hb]

theorem rs_match (a c : Char) (ha : a ≠ '_') (hc : c ≠ '_') (l : Str) :
    replaceSingles (a :: '_' :: c :: l) = a :: '.' :: c :: replaceSingles l := by
  simp [replaceSingles, ha, hc]

/-- The window can cross from a chunk into what follows only through the
pattern `'_' :: y :: _` with `y ≠ '_'`. -/
def noCross (l : Str) : Prop := ∀ y : Char, ∀ t : Str, l = '_' :: y :: t → y = '_'

theorem rs_chunk_no_cross (c : Str) (hc : ∀ x ∈ c, x ≠ '_') (l : Str)
    (hl : noCross l) :
    replaceSingles (c ++ l) = c ++ replaceSingles l := by
  induction c with
  | nil => simp
  | cons a t ih =>
    have ha : a ≠ '_' := hc a (List.mem_cons_self a t)
    have ht : ∀ x ∈ t, x ≠ '_' := fun x hx => hc x (List.mem_cons_of_mem a hx)
    cases t with
    | nil =>
      simp only [List.nil_append, List.cons_append]
      cases l with
      | nil => rfl
      | cons b u =>
        cases u with
        | nil => rfl
        | cons c2 u2 =>
          by_cases hb : b = '_'
          · subst hb
            have hc2 : c2 = '_' := hl c2 u2 rfl
            subst hc2
            simp [replaceSingles]
          · simp [replaceSingles, hb]
    | cons a2 t2 =>
      have ha2 : a2 ≠ '_' := ht a2 (List.mem_cons_self a2 t2)
      simp only [List.cons_append]
      rw [rs_cons_cons_ne a a2 ha2 (t2 ++ l), ← List.cons_append, ih ht]
      simp

theorem rs_chunk_cross (c : Str) (hc : ∀ x ∈ c, x ≠ '_') (hne : c ≠ [])
    (y : Char) (hy : y ≠ '_') (l : Str) :
    replaceSingles (c ++ '_' :: y :: l) = c ++ '.' :: y :: replaceSingles l := by
  induction c with
  | nil => exact absurd rfl hne
  | cons a t ih =>
    have ha : a ≠ '_' := hc a (List.mem_cons_self a t)
    have ht : ∀ x ∈ t, x ≠ '_' := fun x hx => hc x (List.mem_cons_of_mem a hx)
    cases t with
    | nil =>
      simp only [List.nil_append, List.cons_append]
      exact rs_match a y ha hy l
    | cons a2 t2 =>
      have ha2 : a2 ≠ '_' := ht a2 (List.mem_cons_self a2 t2)
      simp only [List.cons_append]
      rw [rs_cons_cons_ne a a2 ha2 (t2 ++ '_' :: y :: l), ← List.cons_append,
        ih ht (by simp)]
      simp

theorem rs_replicate (n : Nat) (l : Str) :
    replaceSingles (List.replicate n '_' ++ l) =
      List.replicate n '_' ++ replaceSingles l := by
  induction n with
  | zero => simp
  | succ n ih =>
    simp only [List.replicate_succ, List.cons_append, rs_und_cons, ih]

theorem rs_noUnd (c : Str) (hc : ∀ x ∈ c, x ≠ '_') : replaceSingles c = c := by
  have h := rs_chunk_no_cross c hc [] (fun y t hh => by cases hh)
  simpa [replaceSingles] using h

/-! ### Wellformedness helpers -/

theorem noUnd_mem {c : Str} (h : NoUnd c = true) : ∀ x ∈ c, x ≠ '_' := by
  intro x hx
  have := List.all_eq_true.mp h x hx
  simpa using this

theorem noUnd_cons {y : Char} {c : Str} (h : NoUnd (y :: c) = true) :
    y ≠ '_' ∧ NoUnd c = true := by
  simp only [NoUnd, List.all_cons, Bool.and_eq_true] at h
  exact ⟨by simpa using h.1, h.2⟩

theorem wfB_of_wfTail (b : Blocks) (h : wfTail b = true) : wfB b = true := by
  cases b with
  | last c => simpa [wfTail, wfB] using h
  | seg c n rest =>
    simp only [wfTail, Bool.and_eq_true] at h
    simp only [wfB, Bool.and_eq_true]
    obtain ⟨⟨⟨⟨_, hU⟩, h1⟩, h3⟩, hr⟩ := h
    exact ⟨⟨⟨hU, h1⟩, h3⟩, hr⟩

/-! ### The singles pass on a block decomposition -/

theorem rs_build :
    ∀ (N : Nat) (b : Blocks), (build b).length ≤ N → wfB b = true →
      noOv b = true → replaceSingles (build b) = buildS b := by
  intro N
  induction N with
  | zero =>
    intro b hlen hw _
    cases b with
    | last c =>
      cases c with
      | nil => rfl
      | cons x t => simp [build] at hlen
    | seg c n rest =>
      exfalso
      simp only [wfB, Bool.and_eq_true, decide_eq_true_eq] at hw
      obtain ⟨⟨⟨_, hn1⟩, _⟩, _⟩ := hw
      simp [build] at hlen
      omega
  | succ N ih =>
    intro b hlen hw hn
    cases b with
    | last c =>
      simp only [wfB] at hw
      simp only [build, buildS]
      exact rs_noUnd c (noUnd_mem hw)
    | seg c n rest =>
      simp only [wfB, Bool.and_eq_true, decide_eq_true_eq] at hw
      obtain ⟨⟨⟨hcU, hn1⟩, hn3⟩, hwt⟩ := hw
      have hc := noUnd_mem hcU
      simp only [noOv, Bool.and_eq_true] at hn
      obtain ⟨htop, hnr⟩ := hn
      have hwB : wfB rest = true := wfB_of_wfTail rest hwt
      have hlen' : (build rest).length ≤ N := by
        simp only [build, List.length_append, List.length_replicate] at hlen
        omega
      by_cases hne1 : n = 1
      · subst hne1
        by_cases hcE : c = []
        · subst hcE
          have hbuild : build (Blocks.seg [] 1 rest) = '_' :: build rest := by
            simp [build]
          rw [hbuild, rs_und_cons, ih rest hlen' hwB hnr]
          simp [buildS, sRep]
        · cases rest with
          | last c2 =>
            cases c2 with
            | nil =>
              have hbuild :
                  build (Blocks.seg c 1 (Blocks.last [])) = c ++ ['_'] := by
                simp [build]
              rw [hbuild,
                rs_chunk_no_cross c hc ['_'] (fun y t hh => by simp at hh)]
              have hone : replaceSingles ['_'] = ['_'] := rfl
              rw [hone]
              simp [buildS, sRep, firstChunk, hcE]
            | cons y c2' =>
              simp only [wfTail] at hwt
              have hy : y ≠ '_' := (noUnd_cons hwt).1
              have hc2' := noUnd_mem (noUnd_cons hwt).2
              have hbuild :
                  build (Blocks.seg c 1 (Blocks.last (y :: c2'))) =
                    c ++ '_' :: y :: c2' := by
                simp [build]
              rw [hbuild, rs_chunk_cross c hc hcE y hy c2',
                rs_noUnd c2' hc2']
              simp [buildS, sRep, firstChunk, hcE]
          | seg c2 n2 rest2 =>
            simp only [wfTail, Bool.and_eq_true, decide_eq_true_eq] at hwt
            obtain ⟨⟨⟨⟨hc2ne, hc2U⟩, hn21⟩, hn23⟩, hwt2⟩ := hwt
            cases c2 with
            | nil => simp at hc2ne
            | cons y c2' =>
              have hy : y ≠ '_' := (noUnd_cons hc2U).1
              have hc2'U : NoUnd c2' = true := (noUnd_cons hc2U).2
              have hbuild :
                  build (Blocks.seg c 1 (Blocks.seg (y :: c2') n2 rest2)) =
                    c ++ '_' :: y :: build (Blocks.seg c2' n2 rest2) := by
                simp [build, List.append_assoc]
              rw [hbuild, rs_chunk_cross c hc hcE y hy _]
              have hwB' : wfB (Blocks.seg c2' n2 rest2) = true := by
                simp only [wfB, Bool.and_eq_true, decide_eq_true_eq]
                exact ⟨⟨⟨hc2'U, hn21⟩, hn23⟩, hwt2⟩
              have hnr' : noOv (Blocks.seg c2' n2 rest2) = true := by
                simp only [noOv, Bool.and_eq_true] at hnr ⊢
                exact hnr
              have hlen'' : (build (Blocks.seg c2' n2 rest2)).length ≤ N := by
                simp only [build, List.length_append, List.length_replicate,
                  List.length_cons] at hlen ⊢
                omega
              rw [ih _ hlen'' hwB' hnr']
              by_cases hc2'E : c2' = []
              · subst hc2'E
                have hn2ne1 : n2 ≠ 1 := by
                  simp only [List.length_cons, List.length_nil] at htop
                  simpa using htop
                simp [buildS, sRep, firstChunk, hcE, hn2ne1,
                  List.append_assoc]
              · simp [buildS, sRep, firstChunk, hcE, hc2'E,
                  List.append_assoc]
      · have hnc : noCross (List.replicate n '_' ++ build rest) := by
          intro y t heq
          obtain ⟨m, rfl⟩ : ∃ m, n = m + 2 := ⟨n - 2, by omega⟩
          rw [show m + 2 = (m + 1) + 1 from rfl, List.replicate_succ,
            List.replicate_succ, List.cons_append, List.cons_append] at heq
          injection heq with h1 h2
          injection h2 with h3 h4
          exact h3.symm
        have hbuild : build (Blocks.seg c n rest) =
            c ++ (List.replicate n '_' ++ build rest) := by
          simp [build, List.append_assoc]
        rw [hbuild, rs_chunk_no_cross c hc _ hnc, rs_replicate n (build rest),
          ih rest hlen' hwB hnr]
        simp [buildS, sRep, hne1, List.append_assoc]

/-! ### The `___` pass on the singles-pass output -/

/-- The head of the list is not an underscore (or the list is empty). -/
def headNe (l : Str) : Prop := ∀ t : Str, l ≠ '_' :: t

theorem rt_cons_ne (a : Char) (ha : a ≠ '_') (l : Str) :
    replaceTriple (a :: l) = a :: replaceTriple l := by
  match l with
  | [] => rfl
  | [b] => rfl
  | b :: c :: t => simp [replaceTriple, ha]

theorem rt_chunk (c : Str) (hc : ∀ x ∈ c, x ≠ '_') (l : Str) :
    replaceTriple (c ++ l) = c ++ replaceTriple l := by
  induction c with
  | nil => simp
  | cons a t ih =>
    have ha : a ≠ '_' := hc a (List.mem_cons_self a t)
    simp only [List.cons_append]
    rw [rt_cons_ne a ha, ih (fun x hx => hc x (List.mem_cons_of_mem a hx))]

theorem rt_und1 (l : Str) (h : headNe l) :
    replaceTriple ('_' :: l) = '_' :: replaceTriple l := by
  cases l with
  | nil => rfl
  | cons b u =>
    have hb : b ≠ '_' := by
      intro hbe
      exact h u (by rw [hbe])
    cases u with
    | nil => rfl
    | cons c u2 => simp [replaceTriple, hb]

theorem rt_und2 (l : Str) (h : headNe l) :
    replaceTriple ('_' :: '_' :: l) = '_' :: '_' :: replaceTriple l := by
  cases l with
  | nil => rfl
  | cons b u =>
    have hb : b ≠ '_' := by
      intro hbe
      exact h u (by rw [hbe])
    have h1 : replaceTriple ('_' :: '_' :: b :: u) =
        '_' :: replaceTriple ('_' :: b :: u) := by
      simp [replaceTriple, hb]
    rw [h1, rt_und1 (b :: u) h]

theorem rt_dash (l : Str) :
    replaceTriple ('_' :: '_' :: '_' :: l) = '-' :: replaceTriple l := by
  simp [replaceTriple]

theorem headNe_buildS (rest : Blocks) (h : wfTail rest = true) :
    headNe (buildS rest) := by
  cases rest with
  | last c =>
    cases c with
    | nil => intro t ht; simp [buildS] at ht
    | cons x c' =>
      intro t ht
      simp only [wfTail] at h
      have hx : x ≠ '_' := (noUnd_cons h).1
      simp only [buildS] at ht
      exact hx (List.head_eq_of_cons_eq ht)
  | seg c n rest2 =>
    simp only [wfTail, Bool.and_eq_true, decide_eq_true_eq] at h
    obtain ⟨⟨⟨⟨hne, hU⟩, _⟩, _⟩, _⟩ := h
    cases c with
    | nil => simp at hne
    | cons x c' =>
      intro t ht
      have hx : x ≠ '_' := (noUnd_cons hU).1
      simp only [buildS, List.cons_append] at ht
      exact hx (List.head_eq_of_cons_eq ht)

theorem rt_build (b : Blocks) (hw : wfB b = true) :
    replaceTriple (buildS b) = buildT b := by
  induction b with
  | last c =>
    simp only [wfB] at hw
    simp only [buildS, buildT]
    have h := rt_chunk c (noUnd_mem hw) []
    simpa [replaceTriple] using h
  | seg c n rest ih =>
    simp only [wfB, Bool.and_eq_true, decide_eq_true_eq] at hw
    obtain ⟨⟨⟨hcU, hn1⟩, hn3⟩, hwt⟩ := hw
    have hc := noUnd_mem hcU
    have hwB : wfB rest = true := wfB_of_wfTail rest hwt
    have hhead : headNe (buildS rest) := headNe_buildS rest hwt
    have hih := ih hwB
    interval_cases n
    · -- n = 1
      cases hlr : (!c.isEmpty && !(firstChunk rest).isEmpty) with
      | true =>
        have hbS : buildS (Blocks.seg c 1 rest) =
            c ++ '.' :: buildS rest := by
          simp [buildS, sRep, hlr]
        rw [hbS, rt_chunk c hc, rt_cons_ne '.' (by decide), hih]
        simp [buildT, tRep, hlr]
      | false =>
        have hbS : buildS (Blocks.seg c 1 rest) =
            c ++ '_' :: buildS rest := by
          simp [buildS, sRep, hlr]
        rw [hbS, rt_chunk c hc, rt_und1 _ hhead, hih]
        simp [buildT, tRep, hlr]
    · -- n = 2
      have hbS : buildS (Blocks.seg c 2 rest) =
          c ++ '_' :: '_' :: buildS rest := by
        simp [buildS, sRep, List.replicate_succ]
      rw [hbS, rt_chunk c hc, rt_und2 _ hhead, hih]
      simp [buildT, tRep, List.replicate_succ]
    · -- n = 3
      have hbS : buildS (Blocks.seg c 3 rest) =
          c ++ '_' :: '_' :: '_' :: buildS rest := by
        simp [buildS, sRep, List.replicate_succ]
      rw [hbS, rt_chunk c hc, rt_dash, hih]
      simp [buildT, tRep]

/-! ### The `__` pass on the `___`-pass output -/

theorem rd_cons_ne (a : Char) (ha : a ≠ '_') (l : Str) :
    replaceDouble (a :: l) = a :: replaceDouble l := by
  match l with
  | [] => rfl
  | b :: t => simp [replaceDouble, ha]

theorem rd_chunk (c : Str) (hc : ∀ x ∈ c, x ≠ '_') (l : Str) :
    replaceDouble (c ++ l) = c ++ replaceDouble l := by
  induction c with
  | nil => simp
  | cons a t ih =>
    have ha : a ≠ '_' := hc a (List.mem_cons_self a t)
    simp only [List.cons_append]
    rw [rd_cons_ne a ha, ih (fun x hx => hc x (List.mem_cons_of_mem a hx))]

theorem rd_und1 (l : Str) (h : headNe l) :
    replaceDouble ('_' :: l) = '_' :: replaceDouble l := by
  cases l with
  | nil => rfl
  | cons b u =>
    have hb : b ≠ '_' := by
      intro hbe
      exact h u (by rw [hbe])
    simp [replaceDouble, hb]

theorem rd_dbl (l : Str) :
    replaceDouble ('_' :: '_' :: l) = '_' :: replaceDouble l := by
  simp [replaceDouble]

theorem headNe_buildT (rest : Blocks) (h : wfTail rest = true) :
    headNe (buildT rest) := by
  cases rest with
  | last c =>
    cases c with
    | nil => intro t ht; simp [buildT] at ht
    | cons x c' =>
      intro t ht
      simp only [wfTail] at h
      have hx : x ≠ '_' := (noUnd_cons h).1
      simp only [buildT] at ht
      exact hx (List.head_eq_of_cons_eq ht)
  | seg c n rest2 =>
    simp only [wfTail, Bool.and_eq_true, decide_eq_true_eq] at h
    obtain ⟨⟨⟨⟨hne, hU⟩, _⟩, _⟩, _⟩ := h
    cases c with
    | nil => simp at hne
    | cons x c' =>
      intro t ht
      have hx : x ≠ '_' := (noUnd_cons hU).1
      simp only [buildT, List.cons_append] at ht
      exact hx (List.head_eq_of_cons_eq ht)

theorem rd_build (b : Blocks) (hw : wfB b = true) :
    replaceDouble (buildT b) = specBlocks b := by
  induction b with
  | last c =>
    simp only [wfB] at hw
    simp only [buildT, specBlocks]
    have h := rd_chunk c (noUnd_mem hw) []
    simpa [replaceDouble] using h
  | seg c n rest ih =>
    simp only [wfB, Bool.and_eq_true, decide_eq_true_eq] at hw
    obtain ⟨⟨⟨hcU, hn1⟩, hn3⟩, hwt⟩ := hw
    have hc := noUnd_mem hcU
    have hwB : wfB rest = true := wfB_of_wfTail rest hwt
    have hhead : headNe (buildT rest) := headNe_buildT rest hwt
    have hih := ih hwB
    interval_cases n
    · cases hlr : (!c.isEmpty && !(firstChunk rest).isEmpty) with
      | true =>
        have hbT : buildT (Blocks.seg c 1 rest) =
            c ++ '.' :: buildT rest := by
          simp [buildT, tRep, hlr]
        rw [hbT, rd_chunk c hc, rd_cons_ne '.' (by decide), hih]
        simp [specBlocks, bRep, hlr]
      | false =>
        have hbT : buildT (Blocks.seg c 1 rest) =
            c ++ '_' :: buildT rest := by
          simp [buildT, tRep, hlr]
        rw [hbT, rd_chunk c hc, rd_und1 _ hhead, hih]
        simp [specBlocks, bRep, hlr]
    · have hbT : buildT (Blocks.seg c 2 rest) =
          c ++ '_' :: '_' :: buildT rest := by
        simp [buildT, tRep, List.replicate_succ]
      rw [hbT, rd_chunk c hc, rd_dbl, hih]
      simp [specBlocks, bRep]
    · have hbT : buildT (Blocks.seg c 3 rest) =
          c ++ '-' :: buildT rest := by
        simp [buildT, tRep]
      rw [hbT, rd_chunk c hc, rd_cons_ne '-' (by decide), hih]
      simp [specBlocks, bRep]

/-- C2 amended: `ConvertKey` applies its single-underscore rule through
leftmost non-overlapping matches, so of two single underscores separated
by exactly one character only the first becomes a dot (`A_B_C` maps to
`a.b_c`, see the counterexample). For every name whose underscore runs all
have length 1 to 3 and in which no two single-underscore runs are
separated by a one-character chunk, the rules hold run by run: an interior
single underscore becomes `.` (a leading or trailing one is kept), a run
of exactly two becomes `_`, a run of exactly three becomes `-`, and the
result is lowercased. -/
theorem c2_convertKey_runs (b : Blocks) (hw : wfB b = true)
    (hn : noOv b = true) :
    ConvertKey (build b) = (specBlocks b).map Char.toLower := by
  rw [ConvertKey, rs_build (build b).length b (Nat.le_refl _) hw hn,
    rt_build b hw, rd_build b hw]

/-- Witness for C2: the name `KEY_WITH__X___END` decomposed into blocks;
the theorem instantiates to `key.with_x-end`. -/
theorem c2_witness :
    ConvertKey
      (build (Blocks.seg "KEY".toList 1 (Blocks.seg "WITH".toList 2
        (Blocks.seg "X".toList 3 (Blocks.last "END".toList))))) =
      (specBlocks (Blocks.seg "KEY".toList 1 (Blocks.seg "WITH".toList 2
        (Blocks.seg "X".toList 3 (Blocks.last "END".toList))))).map
        Char.toLower :=
  c2_convertKey_runs
    (Blocks.seg "KEY".toList 1 (Blocks.seg "WITH".toList 2
      (Blocks.seg "X".toList 3 (Blocks.last "END".toList))))
    (by decide) (by decide)

